import Mathlib

/-!
Verification of the Doxyclang AST-dump parser core.

This file shallowly embeds the parts of `doxyclang.py` (the authoritative
variant; `clangparser.py` is the older near-duplicate) needed to settle the
frozen claims: the depth-stack tree builder (`Parser.build_tree`), the
per-file function registry (`FileContainer.get_at_line`), the function and
parameter declaration payload sub-parsers (`ClangFunctionDecl.__init__`,
`ClangParmVarDecl.__init__`), the parameter-hint reduction
(`Parser._reduce_parameters`) and the comment-scope parameter collection
(`ClangFullComment.get_parameters` / `collect_parameters`).

Python exceptions are modelled with `Except String`; Python `None` and the
falsy empty-string results are modelled with `Option`.
-/

set_option maxHeartbeats 1000000

namespace Doxy

/-! ## Tree builder: `Parser.build_tree` (doxyclang.py lines 102-148)

A parsed line is abstracted to its `(label, depth)` pair: the label stands
for the constructed clang object of that line, the depth is the value `d`
yielded by `_get_next_line`.  In Python children are attached by mutating
the parent that sits on the stack; here the stack holds `Frame`s that
accumulate their children and are folded into their parent when popped
(which happens at the same position the Python append happened). -/

inductive CTree where
  | node (label : Nat) (children : List CTree)

/-- One open node on the builder stack, with the children attached so far. -/
structure Frame where
  label : Nat
  children : List CTree

/-- Closing a frame yields the tree node it was accumulating. -/
def Frame.close (f : Frame) : CTree := CTree.node f.label f.children

/-- Pop `k` frames off the stack (head is the top).  Each popped frame is
closed and appended as the last child of the frame below it — the position
Python gave it with `parent.add_child` at push time.  Popping the final
frame of the stack loses it, matching the Python state right before the
`stack[-1]` that then raises `IndexError`. -/
def popFrames : Nat → List Frame → List Frame
  | 0, s => s
  | _ + 1, [] => []
  | _ + 1, [_] => []
  | k + 1, f :: g :: s => popFrames k (Frame.mk g.label (g.children ++ [f.close]) :: s)

/-- The loop body of `Parser.build_tree` over the parsed `(label, depth)`
lines.  Returns the final stack and whether the `"ERROR: too deep"` branch
(`move > 1`, which prints and breaks) was taken; `Except.error` models the
`IndexError` raised by `stack[-1]` when the pops emptied the stack (a
second depth-0 line). -/
def buildTreeAux : List Frame → List (Nat × Nat) → Except String (List Frame × Bool)
  | stack, [] => .ok (stack, false)
  | [], (lbl, _) :: rest => buildTreeAux [Frame.mk lbl []] rest
  | f :: s, (lbl, d) :: rest =>
    if (f :: s).length < d then .ok (f :: s, true)
    else
      match popFrames ((f :: s).length - d) (f :: s) with
      | [] => .error "IndexError"
      | p :: s2 => buildTreeAux (Frame.mk lbl [] :: p :: s2) rest

/-- Close the whole remaining stack down to its bottom frame, the tree the
Python code reads back as `stack[0]` (whose mutations already contain all
attached children). -/
def collapseInto : Frame → List Frame → CTree
  | f, [] => f.close
  | f, g :: s => collapseInto (Frame.mk g.label (g.children ++ [f.close])) s

/-- `Parser.build_tree`: build the tree from the parsed line sequence.  The
result pairs `self._root` with the flag saying the too-deep diagnostic was
printed; `Except.error` models an escaping `IndexError` (also for an empty
stream, where `stack[0]` raises). -/
def build_tree (lines : List (Nat × Nat)) : Except String (CTree × Bool) :=
  match buildTreeAux [] lines with
  | .error e => .error e
  | .ok ([], _) => .error "IndexError"
  | .ok (f :: s, err) => .ok (collapseInto f s, err)

mutual

/-- Pre-order flattening of a tree, recording each node's depth. -/
def flattenTree : CTree → Nat → List (Nat × Nat)
  | CTree.node l cs, d => (l, d) :: flattenForest cs (d + 1)

/-- Pre-order flattening of a forest at a given depth. -/
def flattenForest : List CTree → Nat → List (Nat × Nat)
  | [], _ => []
  | t :: ts, d => flattenTree t d ++ flattenForest ts d

end

/-- Flattening of a bottom-first frame list: frame `i` of the list sits on
the tree's rightmost spine at depth `base + i`, its already-attached
children before the next open frame. -/
def flattenFrames : List Frame → Nat → List (Nat × Nat)
  | [], _ => []
  | f :: fs, d => (f.label, d) :: (flattenForest f.children (d + 1) ++ flattenFrames fs (d + 1))

/-- Valid depth tails: every subsequent line of a pre-order depth-labeled
tree traversal has depth between 1 and one more than its predecessor. -/
def validTail : Nat → List Nat → Bool
  | _, [] => true
  | p, d :: ds => decide (1 ≤ d) && decide (d ≤ p + 1) && validTail d ds

/-- Valid depth sequences: a root line at depth 0 followed by a valid tail
(the pre-order depth-labeled traversals of rooted trees). -/
def validSeq : List Nat → Bool
  | [] => false
  | d :: ds => d == 0 && validTail 0 ds

/-- Depth of the last line of a chunk, or the default for an empty chunk. -/
def lastDepth (dflt : Nat) (l : List (Nat × Nat)) : Nat :=
  l.foldl (fun _ x => x.2) dflt

/-! ## Function registry: `FileContainer` (doxyclang.py lines 256-278)

The per-file table `self._functions` (a dict from declaration line to the
function object) is modelled as an association list from line to the
function's name; Python's falsy `''` no-match result becomes `none`. -/

/-- `FileContainer.MAX_SEEK_LINE`. -/
def MAX_SEEK_LINE : Nat := 4

/-- Dictionary lookup `self._functions[line]` / `line in self._functions`. -/
def lookupFn (fns : List (Nat × String)) (k : Nat) : Option String :=
  (fns.find? (fun p => p.1 == k)).map (fun p => p.2)

/-- Insert into an ascending-sorted list of keys. -/
def insertAsc (x : Nat) : List Nat → List Nat
  | [] => [x]
  | y :: ys => if x ≤ y then x :: y :: ys else y :: insertAsc x ys

/-- Python's `sorted` over the dict keys (ascending insertion sort). -/
def sortAsc : List Nat → List Nat
  | [] => []
  | x :: xs => insertAsc x (sortAsc xs)

/-- The scan loop of `FileContainer.get_at_line`: over ascending keys, skip
keys below the query line, stop (`break` then `return ''`) past
`line + MAX_SEEK_LINE`, otherwise return the function at the key. -/
def seek (fns : List (Nat × String)) (line : Nat) : List Nat → Option String
  | [] => none
  | l :: ls =>
    if l < line then seek fns line ls
    else if line + MAX_SEEK_LINE < l then none
    else lookupFn fns l

/-- `FileContainer.get_at_line`: exact dict hit, else the ascending scan. -/
def get_at_line (fns : List (Nat × String)) (line : Nat) : Option String :=
  match lookupFn fns line with
  | some f => some f
  | none => seek fns line (sortAsc (fns.map (fun p => p.1)))

/-- Declarative lookup following the spec's words: the first registered
line `L` in ascending order with `line ≤ L ≤ line + MAX_SEEK_LINE`, none
when no registered line lies in that window. -/
def get_at_line_spec (fns : List (Nat × String)) (line : Nat) : Option String :=
  (((sortAsc (fns.map (fun p => p.1))).filter
      (fun l => decide (line ≤ l) && decide (l ≤ line + MAX_SEEK_LINE))).head?).bind
    (fun l => lookupFn fns l)

/-! ## Parameter-hint reduction: `Parser._reduce_parameters` (lines 248-253)

`Counter(descs).most_common()` lists the distinct descriptions with their
multiplicities, most frequent first; Python's `sorted` (used by
`most_common`) is stable and `Counter` iterates in first-insertion order,
so ties keep first-seen order. -/

/-- Index of the first occurrence of a string in a list. -/
def firstIdx : List String → String → Nat
  | [], _ => 0
  | x :: xs, s => if x = s then 0 else firstIdx xs s + 1

/-- Distinct elements in first-seen order (the `Counter` key order), with
an accumulator of the elements already seen. -/
def dedupFirstAux : List String → List String → List String
  | [], _ => []
  | x :: xs, seen =>
    if x ∈ seen then dedupFirstAux xs seen else x :: dedupFirstAux xs (seen ++ [x])

/-- Distinct elements in first-seen order. -/
def dedupFirst (l : List String) : List String := dedupFirstAux l []

/-- Stable insertion for a descending sort by count: `x` goes in front of
the first element whose count does not exceed `x`'s, so among equal counts
the earlier-inserted (earlier first-seen) element stays first. -/
def insertByCount (cnt : String → Nat) (x : String) : List String → List String
  | [] => [x]
  | y :: ys => if cnt y ≤ cnt x then x :: y :: ys else y :: insertByCount cnt x ys

/-- Stable sort by count, descending (Python `sorted(..., reverse=True)`). -/
def sortByCountDesc (cnt : String → Nat) : List String → List String
  | [] => []
  | x :: xs => insertByCount cnt x (sortByCountDesc cnt xs)

/-- `Counter(obs).most_common()` keeping only the elements: the distinct
observed strings, most frequent first, ties in first-seen order. -/
def mostCommon (obs : List String) : List String :=
  sortByCountDesc (fun s => obs.count s) (dedupFirst obs)

/-- `Parser._reduce_parameters`: rank each parameter's collected
descriptions by frequency. -/
def reduce_parameters (params : List (String × List String)) : List (String × List String) :=
  params.map (fun kv => (kv.1, mostCommon kv.2))

/-! ## Payload sub-parsers (doxyclang.py lines 352-418)

The Python regular expressions are embedded as character-list matchers
with the same backtracking behaviour.  Character classes are the ASCII
reading of `\w`, `\s`, `\d` (clang dumps are ASCII). -/

/-- ASCII `\w`. -/
def isWordCh (c : Char) : Bool := c.isAlphanum || c == '_'

/-- ASCII `\s` as it occurs in dump payloads. -/
def isSpaceCh (c : Char) : Bool := c == ' ' || c == '\t' || c == '\n' || c == '\r'

/-- Consume a literal prefix, returning the remainder on success. -/
def dropPrefixCh : List Char → List Char → Option (List Char)
  | [], cs => some cs
  | _ :: _, [] => none
  | p :: ps, c :: cs => if p = c then dropPrefixCh ps cs else none

/-- Match `'[^']+'` at the head: a single-quoted nonempty signature. -/
def matchQuoted : List Char → Option String
  | '\'' :: r =>
    let s := r.takeWhile (fun c => c != '\'')
    let r2 := r.dropWhile (fun c => c != '\'')
    if s.isEmpty then none
    else
      match r2 with
      | '\'' :: _ => some s.asString
      | _ => none
  | _ => none

/-- Match `(?P<name>\w+)\s'(?P<sig>[^']+)'` at the head.  The greedy `\w+`
needs no backtracking: any shorter identifier prefix ends at a word
character, which `\s` cannot match. -/
def matchNameSig (cs : List Char) : Option (String × String) :=
  let w := cs.takeWhile isWordCh
  let r := cs.dropWhile isWordCh
  if w.isEmpty then none
  else
    match r with
    | c :: r2 => if isSpaceCh c then (matchQuoted r2).map (fun sg => (w.asString, sg)) else none
    | [] => none

/-- Match `(?:(?P<name>\w+)\s)?'(?P<sig>[^']+)'`: the optional identifier
is preferred (regex greediness), falling back to the bare signature. -/
def matchOptNameSig (cs : List Char) : Option (Option String × String) :=
  match matchNameSig cs with
  | some (n, sg) => some (some n, sg)
  | none => (matchQuoted cs).map (fun sg => (none, sg))

/-- Tail of `SCRATCH_RE` after the marker: `\d+:\d+`. -/
def lineColMatch (cs : List Char) : Bool :=
  match cs with
  | c :: rest =>
    c.isDigit &&
      (match rest.dropWhile Char.isDigit with
       | ':' :: c2 :: _ => c2.isDigit
       | _ => false)
  | [] => false

/-- `ClangFunctionDecl.SCRATCH_CRE.match(right)`: does the payload start
with the scratch-space marker `<scratch space>:\d+:\d+`. -/
def scratchMatch (s : String) : Bool :=
  match dropPrefixCh "<scratch space>:".toList s.toList with
  | some rest => lineColMatch rest
  | none => false

/-- `FUNC_CRE` with its greedy starred modifier group
`(?:(?:implicit|used|referenced) )*` unrolled with explicit backtracking:
prefer consuming another modifier, fall back to matching the name and
signature at the current position.  The fuel only bounds the recursion;
each repetition consumes at least five characters. -/
def funcMatchAux : Nat → List Char → Option (String × String)
  | 0, _ => none
  | fuel + 1, cs =>
    match dropPrefixCh "implicit ".toList cs with
    | some r => (funcMatchAux fuel r).orElse (fun _ => matchNameSig cs)
    | none =>
      match dropPrefixCh "used ".toList cs with
      | some r => (funcMatchAux fuel r).orElse (fun _ => matchNameSig cs)
      | none =>
        match dropPrefixCh "referenced ".toList cs with
        | some r => (funcMatchAux fuel r).orElse (fun _ => matchNameSig cs)
        | none => matchNameSig cs

/-- `ClangFunctionDecl.FUNC_CRE.match(right)`. -/
def funcMatch (cs : List Char) : Option (String × String) :=
  funcMatchAux (cs.length + 1) cs

/-- `ClangParmVarDecl.CRE` (`(?:(?:used) )*(?:(?P<pvname>\w+)\s)?'...'`)
with the same greedy-star treatment. -/
def parmMatchAux : Nat → List Char → Option (Option String × String)
  | 0, _ => none
  | fuel + 1, cs =>
    match dropPrefixCh "used ".toList cs with
    | some r => (parmMatchAux fuel r).orElse (fun _ => matchOptNameSig cs)
    | none => matchOptNameSig cs

/-- `ClangParmVarDecl.CRE.match(right)`. -/
def parmMatch (cs : List Char) : Option (Option String × String) :=
  parmMatchAux (cs.length + 1) cs

/-- Python `fmo.group('fsig').split('(')[0].strip()`. -/
def retOf (fsig : String) : String :=
  ((fsig.toList.takeWhile (fun c => c != '(')).asString).trim

/-- Outcome of `ClangFunctionDecl.__init__`: the fields it sets and
whether it called `register_function` (the only insertion point of the
per-file FileIndex). -/
structure FuncDeclResult where
  name : String
  line : Nat
  ret : String
  registered : Bool

/-- The declaration-line resolution of `ClangFunctionDecl.__init__`:
`line1` is the `line:\d+:\d+` capture already split at its colon (Python
`int(linedef.split(':')[0])`), `path1` the `path:\d+:\d+` capture
(`int(linedef.split(':')[1])`); 0 when neither slot was captured. -/
def resolveLine (line1 : Option (Nat × Nat)) (path1 : Option (String × Nat × Nat)) : Nat :=
  match line1 with
  | some lc => lc.1
  | none =>
    match path1 with
    | some p => p.2.1
    | none => 0

/-- `ClangFunctionDecl.__init__` over the trailing payload and the first
location slot captures; `Except.error` models the `AttributeError` raised
when `FUNC_CRE` fails to match and the code still calls
`fmo.group('fname')` on `None`. -/
def clangFunctionDeclInit (right : String) (line1 : Option (Nat × Nat))
    (path1 : Option (String × Nat × Nat)) : Except String FuncDeclResult :=
  if scratchMatch right then .ok (FuncDeclResult.mk "" 0 "" false)
  else
    match funcMatch right.toList with
    | none => .error "AttributeError"
    | some (fname, fsig) =>
      if resolveLine line1 path1 = 0 then .ok (FuncDeclResult.mk "" 0 "" false)
      else .ok (FuncDeclResult.mk fname (resolveLine line1 path1) (retOf fsig) true)

/-- The inputs of one `ClangFunctionDecl` construction: the resolved owning
filename and the grammar captures the constructor reads. -/
structure FDInput where
  filename : String
  right : String
  line1 : Option (Nat × Nat)
  path1 : Option (String × Nat × Nat)

/-- The sequence of `register_function` calls (FileIndex insertions,
as `(filename, line, name)` triples) made while constructing a list of
FunctionDecl nodes; an escaping exception aborts the whole parse, so
nothing after it registers. -/
def registerFunctions : List FDInput → List (String × Nat × String)
  | [] => []
  | d :: ds =>
    match clangFunctionDeclInit d.right d.line1 d.path1 with
    | .error _ => []
    | .ok r =>
      (if r.registered then [(d.filename, r.line, r.name)] else []) ++ registerFunctions ds

/-- `ClangParmVarDecl.__init__` over the trailing payload: on a match the
`(name?, signature)` pair; on a mismatch the code executes
`print(n, l, file=sys.stderr)` where neither `n` nor `l` is defined in
scope, so a `NameError` escapes (modelled by `Except.error`). -/
def clangParmVarDeclInit (right : String) : Except String (Option String × String) :=
  match parmMatch right.toList with
  | none => .error "NameError"
  | some r => .ok r

/-! ## Comment nodes and parameter collection (doxyclang.py lines 285-510)

`DoxNode` models the tree nodes the aggregation distinguishes: a
`FullComment` (scoped to its owning file), a `ParamCommandComment`
carrying its referenced parameter name and its `description` property (the
stripped join of its children's text), and every other node kind, which
only recurses into its children. -/

inductive DoxNode where
  | fullComment (filename : String) (children : List DoxNode)
  | paramCommand (name : String) (descr : String)
  | other (children : List DoxNode)

/-- Python dict assignment `parameters[k] = v`: replace in place, keeping
the key's original position, else append. -/
def dictInsert : List (String × String) → String → String → List (String × String)
  | [], k, v => [(k, v)]
  | (k2, v2) :: t, k, v =>
    if k2 = k then (k, v) :: t else (k2, v2) :: dictInsert t k v

/-- `ClangFullComment.get_parameters` over the comment's children: each
`ParamCommandComment` child assigns `parameters[c.name] = c.description`,
so a later child with the same name overwrites the earlier one. -/
def get_parameters (cs : List DoxNode) : List (String × String) :=
  cs.foldl
    (fun acc c =>
      match c with
      | DoxNode.paramCommand n d => dictInsert acc n d
      | _ => acc)
    []

/-- Dictionary lookup in the collected parameter map. -/
def lookupD (l : List (String × String)) (k : String) : Option String :=
  (l.find? (fun p => p.1 == k)).map (fun p => p.2)

/-- The description of the last `ParamCommandComment` child with the given
name, stated directly from the claim's words. -/
def lastParamDesc (cs : List DoxNode) (name : String) : Option String :=
  cs.foldl
    (fun acc c =>
      match c with
      | DoxNode.paramCommand n d => if n == name then some d else acc
      | _ => acc)
    none

/-- `ClangObject._update_parameters` for one key: extend the key's
description list, creating the entry at the end when absent. -/
def addDescs : List (String × List String) → String → List String → List (String × List String)
  | [], k, ds => [(k, ds)]
  | (k2, v) :: t, k, ds =>
    if k2 = k then (k2, v ++ ds) :: t else (k2, v) :: addDescs t k ds

/-- `ClangObject._update_parameters`: merge a collected map into the
accumulator. -/
def updateParams (params nparams : List (String × List String)) : List (String × List String) :=
  nparams.foldl (fun acc kv => addDescs acc kv.1 kv.2) params

/-- Wrap the single-description entries of `get_parameters` the way
`_update_parameters` appends non-list values. -/
def wrapSingles (l : List (String × String)) : List (String × List String) :=
  l.map (fun p => (p.1, [p.2]))

mutual

/-- `collect_parameters` of one node: the default recursion merges the
children's collections; a `FullComment` additionally contributes its own
`get_parameters` and returns nothing when a file filter is given and does
not match its owning file. -/
def collectParams : DoxNode → Option String → List (String × List String)
  | DoxNode.paramCommand _ _, _ => []
  | DoxNode.other cs, fn => collectChildren cs fn []
  | DoxNode.fullComment f cs, fn =>
    match fn with
    | none => updateParams (collectChildren cs none []) (wrapSingles (get_parameters cs))
    | some fname =>
      if f = fname then
        updateParams (collectChildren cs (some fname) []) (wrapSingles (get_parameters cs))
      else []

/-- The children loop of `ClangObject.collect_parameters`. -/
def collectChildren : List DoxNode → Option String →
    List (String × List String) → List (String × List String)
  | [], _, acc => acc
  | c :: cs, fn, acc => collectChildren cs fn (updateParams acc (collectParams c fn))

end

/-- The parser state the query surface reads: `Parser.__init__` sets
`self._mainfile = None` and `self._root = {}` (a placeholder dict that is
not a node, modelled as `none`). -/
structure ParserState where
  mainfile : Option (String × List (Nat × String))
  root : Option DoxNode

/-- The state right after `Parser.__init__`, before any parse. -/
def parserInit : ParserState := ParserState.mk none none

/-- `Parser.get_func` (the `function_at` entry point): guarded on
`self._mainfile`, so it returns `None` before a successful parse. -/
def get_func (st : ParserState) (line : Nat) : Option String :=
  match st.mainfile with
  | none => none
  | some mf => get_at_line mf.2 line

/-- `Parser.collect_parameters` (the `parameter_hints` entry point).
With the default arguments it reads `self._mainfile.name`, which raises
`AttributeError` when no parse has happened; even with a filename, the
initial `self._root` is a plain dict with no `collect_parameters`
attribute, which also raises. -/
def collect_parameters (st : ParserState) (all : Bool) (filename : Option String) :
    Except String (List (String × List String)) :=
  if !all && (filename.getD "" == "") then
    match st.mainfile with
    | none => .error "AttributeError"
    | some mf =>
      match st.root with
      | none => .error "AttributeError"
      | some root => .ok (reduce_parameters (collectParams root (some mf.1)))
  else
    match st.root with
    | none => .error "AttributeError"
    | some root => .ok (reduce_parameters (collectParams root filename))

end Doxy

namespace Doxy

theorem lookupD_cons_self (k v : String) (t : List (String × String)) :
    lookupD ((k, v) :: t) k = some v := by
  simp [lookupD, List.find?]

theorem lookupD_cons_ne (k2 v2 q : String) (t : List (String × String)) (h : k2 ≠ q) :
    lookupD ((k2, v2) :: t) q = lookupD t q := by
  have h3 : (k2 == q) = false := beq_eq_false_iff_ne.mpr h
  simp [lookupD, List.find?, h3]

theorem lookupD_dictInsert (l : List (String × String)) (k v q : String) :
    lookupD (dictInsert l k v) q = if q = k then some v else lookupD l q := by
  induction l with
  | nil =>
    by_cases h : q = k
    · subst h; simp [dictInsert, lookupD, List.find?]
    · have hkq : (k == q) = false := beq_eq_false_iff_ne.mpr (fun e => h e.symm)
      simp [dictInsert, lookupD, List.find?, hkq, h]
  | cons p t ih =>
    obtain ⟨k2, v2⟩ := p
    simp only [dictInsert]
    by_cases hk : k2 = k
    · rw [if_pos hk]
      subst hk
      by_cases h : q = k2
      · subst h
        rw [lookupD_cons_self, lookupD_cons_self, if_pos rfl]
      · rw [lookupD_cons_ne _ _ _ _ (fun e => h e.symm),
            lookupD_cons_ne _ _ _ _ (fun e => h e.symm), if_neg h]
    · rw [if_neg hk]
      by_cases h2 : k2 = q
      · subst h2
        rw [lookupD_cons_self, lookupD_cons_self, if_neg hk]
      · rw [lookupD_cons_ne _ _ _ _ h2, lookupD_cons_ne _ _ _ _ h2, ih]

theorem mem_keys_dictInsert (l : List (String × String)) (k v a : String) :
    a ∈ (dictInsert l k v).map Prod.fst ↔ a = k ∨ a ∈ l.map Prod.fst := by
  induction l with
  | nil => simp [dictInsert]
  | cons p t ih =>
    obtain ⟨k2, v2⟩ := p
    simp only [dictInsert]
    by_cases hk : k2 = k
    · subst hk
      rw [if_pos rfl]
      simp only [List.map_cons, List.mem_cons]
      tauto
    · rw [if_neg hk]
      simp only [List.map_cons, List.mem_cons, ih]
      tauto

theorem nodup_keys_dictInsert (l : List (String × String)) (k v : String)
    (h : (l.map Prod.fst).Nodup) : ((dictInsert l k v).map Prod.fst).Nodup := by
  induction l with
  | nil => simp [dictInsert]
  | cons p t ih =>
    obtain ⟨k2, v2⟩ := p
    simp only [List.map_cons, List.nodup_cons] at h
    simp only [dictInsert]
    by_cases hk : k2 = k
    · subst hk
      rw [if_pos rfl]
      simp only [List.map_cons, List.nodup_cons]
      exact h
    · rw [if_neg hk]
      simp only [List.map_cons, List.nodup_cons]
      refine ⟨?_, ih h.2⟩
      rw [mem_keys_dictInsert]
      rintro (e | e)
      · exact hk e
      · exact h.1 e

theorem get_parameters_lookup_loop (cs : List DoxNode) :
    ∀ (acc : List (String × String)) (name : String),
      lookupD
        (cs.foldl
          (fun acc c =>
            match c with
            | DoxNode.paramCommand n d => dictInsert acc n d
            | _ => acc)
          acc) name
      = cs.foldl
          (fun a c =>
            match c with
            | DoxNode.paramCommand n d => if n == name then some d else a
            | _ => a)
          (lookupD acc name) := by
  induction cs with
  | nil => intro acc name; rfl
  | cons c t ih =>
    intro acc name
    cases c with
    | paramCommand n d =>
      simp only [List.foldl_cons]
      rw [ih]
      have he : lookupD (dictInsert acc n d) name
          = if n == name then some d else lookupD acc name := by
        rw [lookupD_dictInsert]
        by_cases h : name = n
        · subst h; simp
        · have h2 : (n == name) = false := beq_eq_false_iff_ne.mpr (fun e => h e.symm)
          simp [h, h2]
      rw [he]
    | fullComment f cs2 => simp only [List.foldl_cons]; exact ih _ _
    | other cs2 => simp only [List.foldl_cons]; exact ih _ _

theorem get_parameters_nodup_loop (cs : List DoxNode) :
    ∀ (acc : List (String × String)), (acc.map Prod.fst).Nodup →
      ((cs.foldl
          (fun acc c =>
            match c with
            | DoxNode.paramCommand n d => dictInsert acc n d
            | _ => acc)
          acc).map Prod.fst).Nodup := by
  induction cs with
  | nil => intro acc h; exact h
  | cons c t ih =>
    intro acc h
    cases c with
    | paramCommand n d =>
      simp only [List.foldl_cons]
      exact ih _ (nodup_keys_dictInsert _ _ _ h)
    | fullComment f cs2 => simp only [List.foldl_cons]; exact ih _ h
    | other cs2 => simp only [List.foldl_cons]; exact ih _ h

/-- C10: within one FullComment, when several ParamCommandComment children
reference the same parameter name, the collected map holds exactly the
LAST such child's description for that name (earlier ones are
overwritten), and the map has at most one entry per name, so one
FullComment contributes at most one description per parameter name to the
aggregation. -/
theorem C10_last_wins (cs : List DoxNode) (name : String) :
    lookupD (get_parameters cs) name = lastParamDesc cs name ∧
    ((get_parameters cs).map Prod.fst).Nodup := by
  constructor
  · have h := get_parameters_lookup_loop cs [] name
    have h0 : lookupD ([] : List (String × String)) name = none := rfl
    rw [h0] at h
    exact h
  · exact get_parameters_nodup_loop cs [] (by simp)

/-- C7 counterexample: `parameter_hints` (`Parser.collect_parameters` with
its default arguments) called on the freshly initialised parser raises
`AttributeError` (`self._mainfile` is `None` and has no `.name`), instead
of returning an empty result without throwing as the claim states. -/
theorem C7_counterexample :
    collect_parameters parserInit false none = Except.error "AttributeError" := rfl

/-- C7 amended: before a successful parse, `function_at` (`Parser.get_func`)
returns `None` for every line and never throws, but `parameter_hints`
(`Parser.collect_parameters`) raises `AttributeError`. -/
theorem C7_amended :
    (∀ line : Nat, get_func parserInit line = none) ∧
    collect_parameters parserInit false none = Except.error "AttributeError" :=
  ⟨fun _ => rfl, rfl⟩

/-- C8: a FunctionDecl payload matching neither the scratch marker nor the
signature sub-grammar (here `'int ()'`, with no identifier before the
quoted signature) makes `ClangFunctionDecl.__init__` raise: after printing
the error the code still calls `fmo.group('fname')` on `None`, so an
`AttributeError` escapes node construction — the claim says the node is
kept with default name/line and construction continues. -/
theorem C8_funcdecl_mismatch_raises :
    clangFunctionDeclInit "'int ()'" none none = Except.error "AttributeError" := rfl

/-- C9: a ParmVarDecl payload missing the mandatory quoted type signature
(here `count int`) makes `ClangParmVarDecl.__init__` raise: the mismatch
branch executes `print(n, l, file=sys.stderr)` where neither `n` nor `l`
is defined in scope, so a `NameError` escapes instead of the fields being
left empty and the mismatch being logged. -/
theorem C9_parmvardecl_mismatch_raises :
    clangParmVarDeclInit "count int" = Except.error "NameError" := rfl

/-- C2 counterexample: on the two-line input whose second line claims a
depth two deeper than the stack supports (`move > 1`), `Parser.build_tree`
does not report a structural error to its caller: it prints a diagnostic,
breaks out of the loop (the `true` flag) and still stores the partial
one-node tree as `self._root`, so the parse completes and yields the
partial tree as a successful result. -/
theorem C2_counterexample :
    build_tree [(1, 0), (2, 2)] = Except.ok (CTree.node 1 [], true) := rfl

/-! ## Registry lookup lemmas (C3, C4) -/

theorem mem_insertAsc (x a : Nat) (l : List Nat) : a ∈ insertAsc x l ↔ a = x ∨ a ∈ l := by
  induction l with
  | nil => simp [insertAsc]
  | cons y ys ih =>
    by_cases h : x ≤ y
    · simp [insertAsc, h]
    · simp [insertAsc, h, ih]
      tauto

theorem pairwise_insertAsc (x : Nat) (l : List Nat) (h : l.Pairwise (· ≤ ·)) :
    (insertAsc x l).Pairwise (· ≤ ·) := by
  induction l with
  | nil => simp [insertAsc]
  | cons y ys ih =>
    rw [List.pairwise_cons] at h
    by_cases hxy : x ≤ y
    · simp only [insertAsc, if_pos hxy, List.pairwise_cons]
      refine ⟨?_, ?_⟩
      · intro z hz
        rcases List.mem_cons.mp hz with e | hz2
        · exact e ▸ hxy
        · exact le_trans hxy (h.1 z hz2)
      · exact h
    · simp only [insertAsc, if_neg hxy, List.pairwise_cons]
      refine ⟨?_, ih h.2⟩
      intro z hz
      rcases (mem_insertAsc x z ys).mp hz with e | hz2
      · exact e ▸ le_of_lt (Nat.lt_of_not_le hxy)
      · exact h.1 z hz2

theorem mem_sortAsc (a : Nat) (l : List Nat) : a ∈ sortAsc l ↔ a ∈ l := by
  induction l with
  | nil => simp [sortAsc]
  | cons x xs ih => simp [sortAsc, mem_insertAsc, ih]

theorem pairwise_sortAsc (l : List Nat) : (sortAsc l).Pairwise (· ≤ ·) := by
  induction l with
  | nil => simp [sortAsc]
  | cons x xs ih => exact pairwise_insertAsc x _ ih

theorem seek_eq_spec (fns : List (Nat × String)) (line : Nat) :
    ∀ ks : List Nat, ks.Pairwise (· ≤ ·) →
      seek fns line ks
      = ((ks.filter
            (fun l => decide (line ≤ l) && decide (l ≤ line + MAX_SEEK_LINE))).head?).bind
          (fun l => lookupFn fns l) := by
  intro ks
  induction ks with
  | nil => intro _; simp [seek]
  | cons l ls ih =>
    intro pw
    rw [List.pairwise_cons] at pw
    by_cases h1 : l < line
    · have hc : (decide (line ≤ l) && decide (l ≤ line + MAX_SEEK_LINE)) = false := by
        have : ¬ line ≤ l := Nat.not_le_of_lt h1
        simp [this]
      simp only [seek, if_pos h1, List.filter_cons, hc]
      exact ih pw.2
    · by_cases h2 : line + MAX_SEEK_LINE < l
      · have hc : (decide (line ≤ l) && decide (l ≤ line + MAX_SEEK_LINE)) = false := by
          have : ¬ l ≤ line + MAX_SEEK_LINE := Nat.not_le_of_lt h2
          simp [this]
        have hrest : ls.filter
            (fun l => decide (line ≤ l) && decide (l ≤ line + MAX_SEEK_LINE)) = [] := by
          rw [List.filter_eq_nil_iff]
          intro a ha
          have hla : l ≤ a := pw.1 a ha
          have : ¬ a ≤ line + MAX_SEEK_LINE := Nat.not_le_of_lt (Nat.lt_of_lt_of_le h2 hla)
          simp [this]
        simp only [seek, if_neg h1, if_pos h2, List.filter_cons, hc, hrest]
        rfl
      · have hc : (decide (line ≤ l) && decide (l ≤ line + MAX_SEEK_LINE)) = true := by
          have ha : line ≤ l := Nat.le_of_not_lt h1
          have hb : l ≤ line + MAX_SEEK_LINE := Nat.le_of_not_lt h2
          simp [ha, hb]
        simp only [seek, if_neg h1, if_neg h2, List.filter_cons, hc]
        rfl

/-- C3: `FileContainer.get_at_line` coincides with the spec's description:
an exact registered line wins, otherwise the first registered line `L` in
ascending order with `line ≤ L ≤ line + 4` (the window), and an explicit
empty result when no registered line lies in the window — never any other
function. -/
theorem C3_get_at_line_spec_eq (fns : List (Nat × String)) (line : Nat) :
    get_at_line fns line = get_at_line_spec fns line := by
  have hpw : (sortAsc (fns.map (fun p => p.1))).Pairwise (· ≤ ·) := pairwise_sortAsc _
  cases hfind : lookupFn fns line with
  | none =>
    unfold get_at_line get_at_line_spec
    rw [hfind]
    exact seek_eq_spec fns line _ hpw
  | some f =>
    unfold get_at_line get_at_line_spec
    rw [hfind]
    obtain ⟨pr, hpr, hpr2⟩ : ∃ pr, fns.find? (fun p => p.1 == line) = some pr ∧ pr.2 = f := by
      unfold lookupFn at hfind
      cases hf : fns.find? (fun p => p.1 == line) with
      | none => rw [hf] at hfind; simp at hfind
      | some pr => rw [hf] at hfind; simp at hfind; exact ⟨pr, rfl, hfind⟩
    have hline : pr.1 = line := by
      have := List.find?_some hpr
      simpa using this
    have hmem : line ∈ sortAsc (fns.map (fun p => p.1)) := by
      rw [mem_sortAsc]
      rw [← hline]
      exact List.mem_map_of_mem _ (List.mem_of_find?_eq_some hpr)
    have hcond : (fun l => decide (line ≤ l) && decide (l ≤ line + MAX_SEEK_LINE)) line = true := by
      simp
    have hmemf : line ∈ (sortAsc (fns.map (fun p => p.1))).filter
        (fun l => decide (line ≤ l) && decide (l ≤ line + MAX_SEEK_LINE)) :=
      List.mem_filter.mpr ⟨hmem, hcond⟩
    have hpwf : ((sortAsc (fns.map (fun p => p.1))).filter
        (fun l => decide (line ≤ l) && decide (l ≤ line + MAX_SEEK_LINE))).Pairwise (· ≤ ·) :=
      hpw.sublist (List.filter_sublist _)
    cases hflt : (sortAsc (fns.map (fun p => p.1))).filter
        (fun l => decide (line ≤ l) && decide (l ≤ line + MAX_SEEK_LINE)) with
    | nil => rw [hflt] at hmemf; simp at hmemf
    | cons h t =>
      rw [hflt] at hmemf hpwf
      have hh : h = line := by
        have h1 : line ≤ h := by
          have hhmem : h ∈ (h :: t).filter (fun l => True) := by simp
          have : h ∈ (sortAsc (fns.map (fun p => p.1))).filter
              (fun l => decide (line ≤ l) && decide (l ≤ line + MAX_SEEK_LINE)) := by
            rw [hflt]; exact List.mem_cons_self h t
          have := List.of_mem_filter this
          simp at this
          exact this.1
        have h2 : h ≤ line := by
          rcases List.mem_cons.mp hmemf with e | hmt
          · exact e.symm.le
          · rw [List.pairwise_cons] at hpwf
            exact hpwf.1 line hmt
        exact Nat.le_antisymm h2 h1
      subst hh
      simp only [List.head?_cons]
      show some f = ((some h).bind fun l => lookupFn fns l)
      rw [show ((some h).bind fun l => lookupFn fns l) = lookupFn fns h from rfl, hfind]

/-- C4 counterexample: with a single function registered at line 10, the
claim says `function_at(file, 10 + 4)` returns it; the lookup window of
`get_at_line` looks FORWARD from the query line (`line ≤ L ≤ line + 4`),
so the query at 14 finds nothing at all. -/
theorem C4_counterexample : get_at_line [(10, "f")] (10 + 4) = none := rfl

/-- C4 amended: the WINDOW = 4 boundary holds in the forward direction: a
function registered at line `L` (the only registered line, `L ≥ 5`) is
found by `function_at(file, L - 4)` but not by `function_at(file, L - 5)`. -/
theorem C4_amended (L : Nat) (f : String) (h : 5 ≤ L) :
    get_at_line [(L, f)] (L - 4) = some f ∧ get_at_line [(L, f)] (L - 5) = none := by
  have hs : sortAsc ([(L, f)].map (fun p => p.1)) = [L] := rfl
  have hq4 : (L == L - 4) = false := by
    have : L ≠ L - 4 := by omega
    exact beq_eq_false_iff_ne.mpr this
  have hq5 : (L == L - 5) = false := by
    have : L ≠ L - 5 := by omega
    exact beq_eq_false_iff_ne.mpr this
  constructor
  · unfold get_at_line
    have hl : lookupFn [(L, f)] (L - 4) = none := by
      simp [lookupFn, List.find?, hq4]
    rw [hl, hs]
    unfold seek
    rw [if_neg (by omega : ¬ L < L - 4), if_neg (by show ¬ L - 4 + MAX_SEEK_LINE < L; unfold MAX_SEEK_LINE; omega)]
    simp [lookupFn, List.find?]
  · unfold get_at_line
    have hl : lookupFn [(L, f)] (L - 5) = none := by
      simp [lookupFn, List.find?, hq5]
    rw [hl, hs]
    unfold seek
    rw [if_neg (by omega : ¬ L < L - 5), if_pos (by show L - 5 + MAX_SEEK_LINE < L; unfold MAX_SEEK_LINE; omega)]

/-- C4 witness: the amended boundary at the concrete line 12. -/
theorem C4_witness :
    5 ≤ 12 ∧ (get_at_line [(12, "f")] (12 - 4) = some "f" ∧ get_at_line [(12, "f")] (12 - 5) = none) :=
  ⟨by decide, C4_amended 12 "f" (by decide)⟩


/-! ## FunctionDecl registration invariants (C5) -/

theorem registered_line_ne_zero (right : String) (l : Option (Nat × Nat))
    (p : Option (String × Nat × Nat)) (r : FuncDeclResult)
    (hinit : clangFunctionDeclInit right l p = Except.ok r)
    (hreg : r.registered = true) : r.line ≠ 0 := by
  unfold clangFunctionDeclInit at hinit
  by_cases hs : scratchMatch right
  · rw [if_pos hs] at hinit
    cases hinit
    cases hreg
  · rw [if_neg hs] at hinit
    cases hf : funcMatch right.toList with
    | none => rw [hf] at hinit; cases hinit
    | some pr =>
      obtain ⟨fname, fsig⟩ := pr
      rw [hf] at hinit
      have hinit2 : (if resolveLine l p = 0 then
            Except.ok (FuncDeclResult.mk "" 0 "" false)
          else
            Except.ok (FuncDeclResult.mk fname (resolveLine l p) (retOf fsig) true))
          = Except.ok r := hinit
      by_cases hz : resolveLine l p = 0
      · rw [if_pos hz] at hinit2
        cases hinit2
        cases hreg
      · rw [if_neg hz] at hinit2
        cases hinit2
        exact hz

theorem scratch_init (right : String) (l : Option (Nat × Nat))
    (p : Option (String × Nat × Nat)) (hs : scratchMatch right = true) :
    clangFunctionDeclInit right l p = Except.ok (FuncDeclResult.mk "" 0 "" false) := by
  unfold clangFunctionDeclInit
  rw [if_pos hs]

/-- C5: every FileIndex insertion carries a non-zero declaration line (a
FunctionDecl whose line resolved to 0 is never registered); a FunctionDecl
whose payload matches the scratch-space marker is constructed as a
non-function (name left empty, line left 0, not registered) and its
presence in the parsed stream adds nothing to the FileIndex of any file. -/
theorem C5_registration :
    (∀ (ds : List FDInput) (e : String × Nat × String), e ∈ registerFunctions ds → e.2.1 ≠ 0) ∧
    (∀ (right : String) (l : Option (Nat × Nat)) (p : Option (String × Nat × Nat)),
        scratchMatch right = true →
        clangFunctionDeclInit right l p = Except.ok (FuncDeclResult.mk "" 0 "" false)) ∧
    (∀ (d : FDInput) (post : List FDInput), scratchMatch d.right = true →
        registerFunctions (d :: post) = registerFunctions post) := by
  refine ⟨?_, scratch_init, ?_⟩
  · intro ds
    induction ds with
    | nil => intro e he; simp [registerFunctions] at he
    | cons d t ih =>
      intro e he
      unfold registerFunctions at he
      cases hinit : clangFunctionDeclInit d.right d.line1 d.path1 with
      | error msg => rw [hinit] at he; simp at he
      | ok r =>
        rw [hinit] at he
        rcases List.mem_append.mp he with h1 | h2
        · by_cases hreg : r.registered = true
          · rw [if_pos hreg] at h1
            rcases List.mem_singleton.mp h1 with rfl
            exact registered_line_ne_zero _ _ _ _ hinit hreg
          · rw [if_neg hreg] at h1
            simp at h1
        · exact ih e h2
  · intro d post hs
    conv_lhs => rw [registerFunctions]
    rw [scratch_init d.right d.line1 d.path1 hs]
    simp

/-- C5 witness: a concrete scratch-space FunctionDecl input is constructed
unregistered and contributes nothing to the FileIndex. -/
theorem C5_witness :
    scratchMatch (FDInput.mk "a.c" "<scratch space>:12:3" none none).right = true ∧
    registerFunctions [FDInput.mk "a.c" "<scratch space>:12:3" none none] = registerFunctions [] := by
  refine ⟨by decide, ?_⟩
  exact C5_registration.2.2 (FDInput.mk "a.c" "<scratch space>:12:3" none none) [] (by decide)

/-! ## Parameter-hint ranking lemmas (C6) -/

theorem firstIdx_cons_ne (x b : String) (xs : List String) (h : x ≠ b) :
    firstIdx (x :: xs) b = firstIdx xs b + 1 := by
  simp [firstIdx, h]

theorem mem_dedupFirstAux (l : List String) :
    ∀ (seen : List String) (a : String), a ∈ dedupFirstAux l seen ↔ a ∈ l ∧ a ∉ seen := by
  induction l with
  | nil => intro seen a; simp [dedupFirstAux]
  | cons x xs ih =>
    intro seen a
    by_cases hx : x ∈ seen
    · rw [show dedupFirstAux (x :: xs) seen = dedupFirstAux xs seen by
        simp [dedupFirstAux, hx]]
      rw [ih]
      constructor
      · rintro ⟨h1, h2⟩; exact ⟨List.mem_cons_of_mem x h1, h2⟩
      · rintro ⟨h1, h2⟩
        rcases List.mem_cons.mp h1 with rfl | h3
        · exact absurd hx h2
        · exact ⟨h3, h2⟩
    · rw [show dedupFirstAux (x :: xs) seen = x :: dedupFirstAux xs (seen ++ [x]) by
        simp [dedupFirstAux, hx]]
      constructor
      · intro h
        rcases List.mem_cons.mp h with rfl | h2
        · exact ⟨List.mem_cons_self a xs, hx⟩
        · have h3 := (ih _ a).mp h2
          refine ⟨List.mem_cons_of_mem x h3.1, fun hs => h3.2 ?_⟩
          exact List.mem_append.mpr (Or.inl hs)
      · rintro ⟨h1, h2⟩
        rcases List.mem_cons.mp h1 with rfl | h3
        · exact List.mem_cons_self a _
        · by_cases hax : a = x
          · exact hax ▸ List.mem_cons_self x _
          · refine List.mem_cons_of_mem x ((ih _ a).mpr ⟨h3, ?_⟩)
            intro hs
            rcases List.mem_append.mp hs with hs1 | hs1
            · exact h2 hs1
            · exact hax (List.mem_singleton.mp hs1)

theorem nodup_dedupFirstAux (l : List String) : ∀ seen, (dedupFirstAux l seen).Nodup := by
  induction l with
  | nil => intro seen; simp [dedupFirstAux]
  | cons x xs ih =>
    intro seen
    by_cases hx : x ∈ seen
    · rw [show dedupFirstAux (x :: xs) seen = dedupFirstAux xs seen by
        simp [dedupFirstAux, hx]]
      exact ih seen
    · rw [show dedupFirstAux (x :: xs) seen = x :: dedupFirstAux xs (seen ++ [x]) by
        simp [dedupFirstAux, hx]]
      rw [List.nodup_cons]
      refine ⟨?_, ih _⟩
      intro hmem
      have := (mem_dedupFirstAux xs _ x).mp hmem
      exact this.2 (by simp)

theorem pairwise_firstIdx_dedupFirstAux (l : List String) :
    ∀ seen, (dedupFirstAux l seen).Pairwise (fun a b => firstIdx l a < firstIdx l b) := by
  induction l with
  | nil => intro seen; simp [dedupFirstAux]
  | cons x xs ih =>
    intro seen
    by_cases hx : x ∈ seen
    · rw [show dedupFirstAux (x :: xs) seen = dedupFirstAux xs seen by
        simp [dedupFirstAux, hx]]
      refine (ih seen).imp_of_mem ?_
      intro a b ha hb hab
      have hax : a ≠ x := by
        intro e; exact ((mem_dedupFirstAux xs seen a).mp ha).2 (e ▸ hx)
      have hbx : b ≠ x := by
        intro e; exact ((mem_dedupFirstAux xs seen b).mp hb).2 (e ▸ hx)
      rw [firstIdx_cons_ne x a xs (fun e => hax e.symm),
          firstIdx_cons_ne x b xs (fun e => hbx e.symm)]
      omega
    · rw [show dedupFirstAux (x :: xs) seen = x :: dedupFirstAux xs (seen ++ [x]) by
        simp [dedupFirstAux, hx]]
      rw [List.pairwise_cons]
      constructor
      · intro b hb
        have hbx : b ≠ x := by
          intro e
          exact ((mem_dedupFirstAux xs _ b).mp hb).2 (by simp [e])
        rw [show firstIdx (x :: xs) x = 0 by simp [firstIdx],
            firstIdx_cons_ne x b xs (fun e => hbx e.symm)]
        omega
      · refine (ih (seen ++ [x])).imp_of_mem ?_
        intro a b ha hb hab
        have hax : a ≠ x := by
          intro e
          exact ((mem_dedupFirstAux xs _ a).mp ha).2 (by simp [e])
        have hbx : b ≠ x := by
          intro e
          exact ((mem_dedupFirstAux xs _ b).mp hb).2 (by simp [e])
        rw [firstIdx_cons_ne x a xs (fun e => hax e.symm),
            firstIdx_cons_ne x b xs (fun e => hbx e.symm)]
        omega

theorem mem_insertByCount (cnt : String → Nat) (x a : String) (l : List String) :
    a ∈ insertByCount cnt x l ↔ a = x ∨ a ∈ l := by
  induction l with
  | nil => simp [insertByCount]
  | cons y ys ih =>
    by_cases h : cnt y ≤ cnt x
    · simp [insertByCount, h]
    · simp [insertByCount, h, ih]
      tauto

theorem mem_sortByCountDesc (cnt : String → Nat) (a : String) (l : List String) :
    a ∈ sortByCountDesc cnt l ↔ a ∈ l := by
  induction l with
  | nil => simp [sortByCountDesc]
  | cons x xs ih => simp [sortByCountDesc, mem_insertByCount, ih]

theorem nodup_insertByCount (cnt : String → Nat) (x : String) (l : List String)
    (hx : x ∉ l) (h : l.Nodup) : (insertByCount cnt x l).Nodup := by
  induction l with
  | nil => simp [insertByCount]
  | cons y ys ih =>
    rw [List.nodup_cons] at h
    by_cases hc : cnt y ≤ cnt x
    · simp only [insertByCount, if_pos hc, List.nodup_cons]
      refine ⟨?_, ?_⟩
      · intro hmem
        exact hx hmem
      · exact h
    · simp only [insertByCount, if_neg hc, List.nodup_cons]
      refine ⟨?_, ih (fun hm => hx (List.mem_cons_of_mem y hm)) h.2⟩
      rw [mem_insertByCount]
      rintro (rfl | hm)
      · exact hx (List.mem_cons_self y ys)
      · exact h.1 hm

theorem nodup_sortByCountDesc (cnt : String → Nat) (l : List String) (h : l.Nodup) :
    (sortByCountDesc cnt l).Nodup := by
  induction l with
  | nil => simp [sortByCountDesc]
  | cons x xs ih =>
    rw [List.nodup_cons] at h
    exact nodup_insertByCount cnt x _
      (fun hm => h.1 ((mem_sortByCountDesc cnt x xs).mp hm)) (ih h.2)

theorem pairwise_insertByCount (cnt ix : String → Nat) (x : String) (l : List String)
    (hl : l.Pairwise (fun a b => cnt b < cnt a ∨ (cnt b = cnt a ∧ ix a < ix b)))
    (hx : ∀ y ∈ l, ix x < ix y) :
    (insertByCount cnt x l).Pairwise
      (fun a b => cnt b < cnt a ∨ (cnt b = cnt a ∧ ix a < ix b)) := by
  induction l with
  | nil => simp [insertByCount]
  | cons y ys ih =>
    rw [List.pairwise_cons] at hl
    by_cases hc : cnt y ≤ cnt x
    · simp only [insertByCount, if_pos hc, List.pairwise_cons]
      refine ⟨?_, hl⟩
      intro z hz
      rcases List.mem_cons.mp hz with rfl | hz2
      · rcases Nat.lt_or_ge (cnt z) (cnt x) with h1 | h1
        · exact Or.inl h1
        · exact Or.inr ⟨Nat.le_antisymm hc h1, hx z (List.mem_cons_self z ys)⟩
      · have hyz := hl.1 z hz2
        have hcz : cnt z ≤ cnt y := by
          rcases hyz with h1 | h1
          · exact Nat.le_of_lt h1
          · exact Nat.le_of_eq h1.1
        rcases Nat.lt_or_ge (cnt z) (cnt x) with h1 | h1
        · exact Or.inl h1
        · exact Or.inr ⟨Nat.le_antisymm (Nat.le_trans hcz hc) h1,
            hx z (List.mem_cons_of_mem y hz2)⟩
    · simp only [insertByCount, if_neg hc, List.pairwise_cons]
      constructor
      · intro z hz
        rcases (mem_insertByCount cnt x z ys).mp hz with rfl | hz2
        · exact Or.inl (Nat.lt_of_not_le hc)
        · exact hl.1 z hz2
      · exact ih hl.2 (fun y2 hy2 => hx y2 (List.mem_cons_of_mem y hy2))

theorem pairwise_sortByCountDesc (cnt ix : String → Nat) (l : List String)
    (h : l.Pairwise (fun a b => ix a < ix b)) :
    (sortByCountDesc cnt l).Pairwise
      (fun a b => cnt b < cnt a ∨ (cnt b = cnt a ∧ ix a < ix b)) := by
  induction l with
  | nil => simp [sortByCountDesc]
  | cons x xs ih =>
    rw [List.pairwise_cons] at h
    exact pairwise_insertByCount cnt ix x _ (ih h.2)
      (fun y hy => h.1 y ((mem_sortByCountDesc cnt y xs).mp hy))

/-- C6: the reduced hint list for a parameter groups the observed
descriptions by exact text (each distinct description appears exactly
once), ordered from most frequent to least frequent with ties broken by
first-seen order; and the concrete instance of the claim: observing
`"item count"` twice and `"total count"` once ranks them
`["item count", "total count"]`. -/
theorem C6_ranking :
    (∀ (obs : List String) (s : String), s ∈ mostCommon obs ↔ s ∈ obs) ∧
    (∀ obs : List String, (mostCommon obs).Nodup) ∧
    (∀ obs : List String, (mostCommon obs).Pairwise (fun a b =>
        obs.count b < obs.count a ∨
          (obs.count b = obs.count a ∧ firstIdx obs a < firstIdx obs b))) ∧
    reduce_parameters [("count", ["item count", "total count", "item count"])]
      = [("count", ["item count", "total count"])] := by
  refine ⟨?_, ?_, ?_, by decide⟩
  · intro obs s
    unfold mostCommon
    rw [mem_sortByCountDesc]
    unfold dedupFirst
    rw [mem_dedupFirstAux]
    simp
  · intro obs
    exact nodup_sortByCountDesc _ _ (nodup_dedupFirstAux obs [])
  · intro obs
    exact pairwise_sortByCountDesc _ _ _ (pairwise_firstIdx_dedupFirstAux obs [])

/-! ## Tree builder round-trip (C1, C2) -/

theorem flattenForest_append (a b : List CTree) (d : Nat) :
    flattenForest (a ++ b) d = flattenForest a d ++ flattenForest b d := by
  induction a with
  | nil => simp [flattenForest]
  | cons t ts ih => simp [flattenForest, ih]

theorem flattenFrames_close (xs : List Frame) (g f : Frame) :
    ∀ d : Nat,
      flattenFrames (xs ++ [g, f]) d
      = flattenFrames (xs ++ [Frame.mk g.label (g.children ++ [f.close])]) d := by
  induction xs with
  | nil =>
    intro d
    simp [flattenFrames, flattenForest_append, flattenForest, flattenTree, Frame.close]
  | cons x xs ih =>
    intro d
    simp only [List.cons_append, flattenFrames, List.append_eq]
    rw [ih]

theorem flattenFrames_push (xs : List Frame) (l : Nat) :
    ∀ d : Nat,
      flattenFrames (xs ++ [Frame.mk l []]) d
      = flattenFrames xs d ++ [(l, d + xs.length)] := by
  induction xs with
  | nil =>
    intro d
    simp [flattenFrames, flattenForest]
  | cons x xs ih =>
    intro d
    simp only [List.cons_append, flattenFrames, List.append_eq, ih, List.append_assoc,
      List.length_cons, List.nil_append]
    have he : d + 1 + xs.length = d + (xs.length + 1) := by omega
    rw [he]

theorem popFrames_length : ∀ (k : Nat) (s : List Frame), k < s.length →
    (popFrames k s).length = s.length - k := by
  intro k
  induction k with
  | zero => intro s _; simp [popFrames]
  | succ k ih =>
    intro s hk
    match s with
    | [] => simp at hk
    | [x] => simp at hk
    | f :: g :: s2 =>
      rw [show popFrames (k + 1) (f :: g :: s2)
          = popFrames k (Frame.mk g.label (g.children ++ [f.close]) :: s2) from rfl]
      rw [ih _ (by simp at hk ⊢; omega)]
      simp only [List.length_cons]
      omega

theorem popFrames_flatten : ∀ (k : Nat) (s : List Frame), k < s.length →
    flattenFrames (popFrames k s).reverse 0 = flattenFrames s.reverse 0 := by
  intro k
  induction k with
  | zero => intro s _; rfl
  | succ k ih =>
    intro s hk
    match s with
    | [] => simp at hk
    | [x] => simp at hk
    | f :: g :: s2 =>
      rw [show popFrames (k + 1) (f :: g :: s2)
          = popFrames k (Frame.mk g.label (g.children ++ [f.close]) :: s2) from rfl]
      rw [ih _ (by simp at hk ⊢; omega)]
      have h1 : (Frame.mk g.label (g.children ++ [f.close]) :: s2).reverse
          = s2.reverse ++ [Frame.mk g.label (g.children ++ [f.close])] := by simp
      have h2 : (f :: g :: s2).reverse = s2.reverse ++ [g, f] := by simp
      rw [h1, h2, flattenFrames_close]

theorem collapseInto_flatten : ∀ (s : List Frame) (f : Frame),
    flattenTree (collapseInto f s) 0 = flattenFrames (f :: s).reverse 0 := by
  intro s
  induction s with
  | nil =>
    intro f
    simp [collapseInto, Frame.close, flattenTree, flattenFrames]
  | cons g s2 ih =>
    intro f
    rw [show collapseInto f (g :: s2)
        = collapseInto (Frame.mk g.label (g.children ++ [f.close])) s2 from rfl]
    rw [ih]
    have h1 : (Frame.mk g.label (g.children ++ [f.close]) :: s2).reverse
        = s2.reverse ++ [Frame.mk g.label (g.children ++ [f.close])] := by simp
    have h2 : (f :: g :: s2).reverse = s2.reverse ++ [g, f] := by simp
    rw [h1, h2, flattenFrames_close]

theorem lastDepth_cons (dflt lbl d : Nat) (t : List (Nat × Nat)) :
    lastDepth dflt ((lbl, d) :: t) = lastDepth d t := rfl

theorem buildTreeAux_chunk (mid : List (Nat × Nat)) :
    ∀ (stack : List Frame) (cont : List (Nat × Nat)),
      stack ≠ [] →
      validTail (stack.length - 1) (mid.map Prod.snd) = true →
      ∃ stack2 : List Frame, stack2 ≠ [] ∧
        stack2.length = lastDepth (stack.length - 1) mid + 1 ∧
        flattenFrames stack2.reverse 0 = flattenFrames stack.reverse 0 ++ mid ∧
        buildTreeAux stack (mid ++ cont) = buildTreeAux stack2 cont := by
  induction mid with
  | nil =>
    intro stack cont hne _
    refine ⟨stack, hne, ?_, by simp, by simp⟩
    have hpos : 1 ≤ stack.length := List.length_pos.mpr hne
    show stack.length = lastDepth (stack.length - 1) [] + 1
    unfold lastDepth
    simp only [List.foldl_nil]
    omega
  | cons hd mid2 ih =>
    obtain ⟨lbl, d⟩ := hd
    intro stack cont hne hv
    obtain ⟨f, s, rfl⟩ : ∃ f s, stack = f :: s := by
      cases stack with
      | nil => exact absurd rfl hne
      | cons f s => exact ⟨f, s, rfl⟩
    simp only [List.map_cons, validTail, Bool.and_eq_true, decide_eq_true_eq] at hv
    obtain ⟨⟨h1, h2⟩, h3⟩ := hv
    have hlen1 : (f :: s).length - 1 + 1 = (f :: s).length := by simp
    rw [hlen1] at h2
    have hnl : ¬ (f :: s).length < d := by omega
    have hkl : (f :: s).length - d < (f :: s).length := by
      have : 1 ≤ (f :: s).length := by simp
      omega
    have hplen : (popFrames ((f :: s).length - d) (f :: s)).length = d := by
      rw [popFrames_length _ _ hkl]
      omega
    cases hpop : popFrames ((f :: s).length - d) (f :: s) with
    | nil =>
      rw [hpop] at hplen
      simp at hplen
      omega
    | cons p2 s2 =>
      rw [hpop] at hplen
      have hstep : buildTreeAux (f :: s) ((lbl, d) :: (mid2 ++ cont))
          = buildTreeAux (Frame.mk lbl [] :: p2 :: s2) (mid2 ++ cont) := by
        have hb : buildTreeAux (f :: s) ((lbl, d) :: (mid2 ++ cont))
            = if (f :: s).length < d then Except.ok (f :: s, true)
              else
                match popFrames ((f :: s).length - d) (f :: s) with
                | [] => Except.error "IndexError"
                | p :: s3 => buildTreeAux (Frame.mk lbl [] :: p :: s3) (mid2 ++ cont) := rfl
        rw [hb, if_neg hnl, hpop]
      have hnewlen : (Frame.mk lbl [] :: p2 :: s2).length - 1 = d := by
        simp only [List.length_cons] at hplen ⊢
        omega
      obtain ⟨stack2, hne2, hlen2, hflat2, heq2⟩ :=
        ih (Frame.mk lbl [] :: p2 :: s2) cont (by simp) (by rw [hnewlen]; exact h3)
      refine ⟨stack2, hne2, ?_, ?_, ?_⟩
      · rw [hlen2, hnewlen, lastDepth_cons]
      · rw [hflat2]
        have hrev : (Frame.mk lbl [] :: p2 :: s2).reverse
            = (p2 :: s2).reverse ++ [Frame.mk lbl []] := by simp
        have hpf : flattenFrames ((p2 :: s2) : List Frame).reverse 0
            = flattenFrames (f :: s).reverse 0 := by
          rw [← hpop]
          exact popFrames_flatten _ _ hkl
        have hlenrev : ((p2 :: s2) : List Frame).reverse.length = d := by
          rw [List.length_reverse]
          exact hplen
        rw [hrev, flattenFrames_push, hpf, hlenrev]
        simp [List.append_assoc]
      · rw [List.cons_append, hstep, heq2]


/-- C1: for every valid depth-labeled line sequence (a root line at depth
0 followed by lines whose depth stays between 1 and one more than the
open-ancestor depth), `Parser.build_tree` succeeds without the too-deep
diagnostic and re-flattening the resulting tree in pre-order, recording
each node's reconstructed depth, reproduces the original labeled depth
sequence exactly. -/
theorem C1_roundtrip (lines : List (Nat × Nat))
    (h : validSeq (lines.map Prod.snd) = true) :
    ∃ t : CTree, build_tree lines = Except.ok (t, false) ∧ flattenTree t 0 = lines := by
  match lines with
  | [] => simp [validSeq] at h
  | (l0, d0) :: rest =>
    simp only [List.map_cons, validSeq, Bool.and_eq_true, beq_iff_eq] at h
    obtain ⟨hd0, hv⟩ := h
    subst hd0
    obtain ⟨stack2, hne2, hlen2, hflat2, heq2⟩ :=
      buildTreeAux_chunk rest [Frame.mk l0 []] [] (by simp) hv
    rw [List.append_nil] at heq2
    obtain ⟨f2, s2, rfl⟩ : ∃ f2 s2, stack2 = f2 :: s2 := by
      cases stack2 with
      | nil => exact absurd rfl hne2
      | cons f2 s2 => exact ⟨f2, s2, rfl⟩
    refine ⟨collapseInto f2 s2, ?_, ?_⟩
    · have hbt : build_tree ((l0, 0) :: rest)
          = match buildTreeAux [Frame.mk l0 []] rest with
            | .error e => .error e
            | .ok ([], _) => .error "IndexError"
            | .ok (f :: s, err) => .ok (collapseInto f s, err) := rfl
      rw [hbt, heq2]
      rfl
    · rw [collapseInto_flatten, hflat2]
      simp [flattenFrames, flattenForest]

/-- C1 witness: the round-trip at a concrete valid labeled depth
sequence. -/
theorem C1_witness :
    validSeq (([((10 : Nat), (0 : Nat)), (11, 1), (12, 2), (13, 1)]).map Prod.snd) = true ∧
    ∃ t : CTree,
      build_tree [(10, 0), (11, 1), (12, 2), (13, 1)] = Except.ok (t, false) ∧
      flattenTree t 0 = [(10, 0), (11, 1), (12, 2), (13, 1)] :=
  ⟨by decide, C1_roundtrip _ (by decide)⟩

/-- C2 amended: on an input whose prefix is valid and whose next line
claims a depth more than one beyond the last open depth (`move > 1`),
`Parser.build_tree` stops at that line (every later line is ignored),
prints the too-deep diagnostic (the `true` flag), and still completes
normally: the partial tree built from the prefix is kept as `self._root`
and no error is reported to the caller. -/
theorem C2_amended (l0 : Nat) (mid : List (Nat × Nat)) (lbl dd : Nat)
    (rest : List (Nat × Nat))
    (hmid : validTail 0 (mid.map Prod.snd) = true)
    (hjump : lastDepth 0 mid + 1 < dd) :
    ∃ t : CTree,
      build_tree ((l0, 0) :: (mid ++ (lbl, dd) :: rest)) = Except.ok (t, true) ∧
      flattenTree t 0 = (l0, 0) :: mid := by
  obtain ⟨stack2, hne2, hlen2, hflat2, heq2⟩ :=
    buildTreeAux_chunk mid [Frame.mk l0 []] ((lbl, dd) :: rest) (by simp) hmid
  obtain ⟨f2, s2, rfl⟩ : ∃ f2 s2, stack2 = f2 :: s2 := by
    cases stack2 with
    | nil => exact absurd rfl hne2
    | cons f2 s2 => exact ⟨f2, s2, rfl⟩
  have hlen3 : (f2 :: s2).length = lastDepth 0 mid + 1 := by
    simpa using hlen2
  have hlt : (f2 :: s2).length < dd := by omega
  have hfin : buildTreeAux (f2 :: s2) ((lbl, dd) :: rest) = Except.ok ((f2 :: s2), true) := by
    have hb : buildTreeAux (f2 :: s2) ((lbl, dd) :: rest)
        = if (f2 :: s2).length < dd then Except.ok (f2 :: s2, true)
          else
            match popFrames ((f2 :: s2).length - dd) (f2 :: s2) with
            | [] => Except.error "IndexError"
            | p :: s3 => buildTreeAux (Frame.mk lbl [] :: p :: s3) rest := rfl
    rw [hb, if_pos hlt]
  refine ⟨collapseInto f2 s2, ?_, ?_⟩
  · have hbt : build_tree ((l0, 0) :: (mid ++ (lbl, dd) :: rest))
        = match buildTreeAux [Frame.mk l0 []] (mid ++ (lbl, dd) :: rest) with
          | .error e => .error e
          | .ok ([], _) => .error "IndexError"
          | .ok (f :: s, err) => .ok (collapseInto f s, err) := rfl
    rw [hbt, heq2, hfin]
  · rw [collapseInto_flatten, hflat2]
    simp [flattenFrames, flattenForest]

/-- C2 witness: the amended behaviour at a concrete input with a depth
jump of two after a valid two-line prefix. -/
theorem C2_witness :
    validTail 0 (([((2 : Nat), (1 : Nat))]).map Prod.snd) = true ∧
    lastDepth 0 [(2, 1)] + 1 < 3 ∧
    ∃ t : CTree,
      build_tree (((1 : Nat), (0 : Nat)) :: ([(2, 1)] ++ (3, 3) :: [])) = Except.ok (t, true) ∧
      flattenTree t 0 = (1, 0) :: [(2, 1)] :=
  ⟨by decide, by decide, C2_amended 1 [(2, 1)] 3 3 [] (by decide) (by decide)⟩

end Doxy
